import Mathlib

/-!
Shallow embedding of the `int-conv` crate: explicit conversions between
fixed-width integer types (zero-extension, sign-extension, generic extension,
signed/unsigned reinterpretation, truncation, split/join).

A machine integer value of a type `T` of width `w` is modelled by its bit
pattern, a natural number `p < 2 ^ w`.  The twos-complement numeric value of
the pattern is recovered by `toInt`, and `ofInt` wraps an integer back into a
pattern.  Rust `as`-casts act on patterns through `rustCast`.  Each trait
method of the crate is embedded as a function on patterns, parameterised by
the source and destination types; the finite families of macro-generated
`impl`s are captured by `Implemented`-style predicates listing exactly the
pairs the macros generate (plus the blanket identity impls).
-/

set_option maxRecDepth 8000

namespace IntConv

/-- A fixed-width machine integer type: its bit width and signedness.
Mirrors the closed set of Rust types the crate works with. -/
structure Ty where
  width : Nat
  signed : Bool
  deriving DecidableEq

/-- Twos-complement numeric value of the bit pattern `p` at width `w`. -/
def toInt (w p : Nat) : Int :=
  if p < 2 ^ (w - 1) then (p : Int) else (p : Int) - 2 ^ w

/-- Bit pattern (at width `w`) representing the integer `x`, wrapping
modulo `2 ^ w`. -/
def ofInt (w : Nat) (x : Int) : Nat :=
  (x % (2 : Int) ^ w).toNat

/-- Rust `as`-cast from type `S` to type `D`, acting on bit patterns:
the numeric value of the source (twos-complement if `S` is signed) is
wrapped into the destination width. -/
def rustCast (S D : Ty) (p : Nat) : Nat :=
  if S.signed then ofInt D.width (toInt S.width p) else p % 2 ^ D.width

/-- The same-width unsigned variant, `<T as Signed>::Unsigned` (src/sign.rs). -/
def unsignedOf (T : Ty) : Ty := ⟨T.width, false⟩

/-- The same-width signed variant, `<T as Signed>::Signed` (src/sign.rs). -/
def signedOf (T : Ty) : Ty := ⟨T.width, true⟩

def i8 : Ty := ⟨8, true⟩
def i16 : Ty := ⟨16, true⟩
def i32 : Ty := ⟨32, true⟩
def i64 : Ty := ⟨64, true⟩
def i128 : Ty := ⟨128, true⟩
def u8 : Ty := ⟨8, false⟩
def u16 : Ty := ⟨16, false⟩
def u32 : Ty := ⟨32, false⟩
def u64 : Ty := ⟨64, false⟩
def u128 : Ty := ⟨128, false⟩

/-- Embeds `Signed::as_unsigned` (src/sign.rs): for a signed type the body is
`self as $TUnsigned`; for an unsigned type it is `self`. -/
def as_unsigned (T : Ty) (p : Nat) : Nat :=
  if T.signed then rustCast T (unsignedOf T) p else p

/-- Embeds `Signed::as_signed` (src/sign.rs): for a signed type the body is `self`;
for an unsigned type it is `self as $TSigned`. -/
def as_signed (T : Ty) (p : Nat) : Nat :=
  if T.signed then p else rustCast T (signedOf T) p

/-- The `w`-bit bitwise complement `!p` of a pattern `p < 2 ^ w`. -/
def bitNot (w p : Nat) : Nat := 2 ^ w - 1 - p

/-- The `w`-bit `wrapping_add`. -/
def wrapping_add (w a b : Nat) : Nat := (a + b) % 2 ^ w

/-- Embeds `Signed::abs_unsigned` (src/sign.rs): for a signed type,
`if self < 0 { (!self.as_unsigned()).wrapping_add(1) } else { self.as_unsigned() }`;
for an unsigned type, `self`. -/
def abs_unsigned (T : Ty) (p : Nat) : Nat :=
  if T.signed then
    if toInt T.width p < 0 then wrapping_add T.width (bitNot T.width (as_unsigned T p)) 1
    else as_unsigned T p
  else p

/-- Embeds `ZeroExtend::zero_extend` (src/extend.rs and src/extend/zero.rs):
the blanket impl for `T = U` returns `self`; the macro-generated impls do
`self as <T as Signed>::Unsigned as <U as Signed>::Unsigned as U`. -/
def zero_extend (T U : Ty) (p : Nat) : Nat :=
  if T = U then p
  else rustCast (unsignedOf U) U (rustCast (unsignedOf T) (unsignedOf U) (rustCast T (unsignedOf T) p))

/-- Embeds `SignExtend::sign_extend` (src/extend.rs and src/extend/sign.rs):
the blanket impl for `T = U` returns `self`; the macro-generated impls do
`self as <T as Signed>::Signed as <U as Signed>::Signed as U`. -/
def sign_extend (T U : Ty) (p : Nat) : Nat :=
  if T = U then p
  else rustCast (signedOf U) U (rustCast (signedOf T) (signedOf U) (rustCast T (signedOf T) p))

/-- Embeds `Extend::extend` (src/extend.rs and src/extend/default.rs): the blanket
impl for `T = U` returns `self`; the macro-generated impls call
`self.zero_extend()` for the unsigned families and `self.sign_extend()` for
the signed families. -/
def extend (T U : Ty) (p : Nat) : Nat :=
  if T = U then p
  else if T.signed then sign_extend T U p else zero_extend T U p

/-- Embeds `Truncate::truncate` (src/trunc.rs): the blanket impl for `T = U` returns
`self`; the macro-generated impls do `self as $U`. -/
def truncate (T U : Ty) (p : Nat) : Nat :=
  if T = U then p else rustCast T U p

/-- The widths appearing in the macro invocation lists of the crate. -/
def validWidth (w : Nat) : Prop :=
  w = 8 ∨ w = 16 ∨ w = 32 ∨ w = 64 ∨ w = 128

/-- The `(T, U)` pairs for which a `ZeroExtend<U> for T` impl exists:
the blanket identity impl, plus the macro lists
`u8 => u16,u32,u64,u128`, …, `i8 => i16,i32,i64,i128`, … (same signedness,
strictly growing width). -/
def ZeroExtendImplemented (T U : Ty) : Prop :=
  T = U ∨ (T.signed = U.signed ∧ T.width < U.width ∧ validWidth T.width ∧ validWidth U.width)

/-- The `(T, U)` pairs for which a `SignExtend<U> for T` impl exists:
the blanket identity impl, plus the macro lists `i8 => i16,i32,i64,i128`, …
(both signed, strictly growing width). -/
def SignExtendImplemented (T U : Ty) : Prop :=
  T = U ∨ (T.signed = true ∧ U.signed = true ∧ T.width < U.width ∧ validWidth T.width ∧ validWidth U.width)

/-- The `(T, U)` pairs for which an `Extend<U> for T` impl exists: same lists
as zero extension. -/
def ExtendImplemented (T U : Ty) : Prop :=
  T = U ∨ (T.signed = U.signed ∧ T.width < U.width ∧ validWidth T.width ∧ validWidth U.width)

/-- The `(T, U)` pairs for which a `Truncate<U> for T` impl exists:
the blanket identity impl, plus the macro lists `u128 => u64,u32,u16,u8`, …
(same signedness, strictly shrinking width). -/
def TruncateImplemented (T U : Ty) : Prop :=
  T = U ∨ (T.signed = U.signed ∧ U.width < T.width ∧ validWidth T.width ∧ validWidth U.width)

/-- The double-width unsigned type of half width `k` in a
`impl_split_join! { $T => $Hi : $Lo }` invocation. -/
def splitTy (k : Nat) : Ty := ⟨2 * k, false⟩

/-- The half-width unsigned type (`Lo` and `Hi` coincide) of a
`impl_split_join!` invocation. -/
def halfTy (k : Nat) : Ty := ⟨k, false⟩

/-- The half widths `k` for which `Split`/`Join` impls exist:
`u16 => u8`, `u32 => u16`, `u64 => u32`, `u128 => u64`. -/
def SplitJoinImplemented (k : Nat) : Prop :=
  k = 8 ∨ k = 16 ∨ k = 32 ∨ k = 64

/-- Embeds `Split::lo` (src/split.rs): `<Self as Truncate<Self::Lo>>::truncate(self)`. -/
def lo (k p : Nat) : Nat := truncate (splitTy k) (halfTy k) p

/-- Embeds `Split::hi` (src/split.rs):
`<Self as Truncate<Self::Lo>>::truncate(self.shr(8 * size_of::<Self::Lo>()))`. -/
def hi (k p : Nat) : Nat := truncate (splitTy k) (halfTy k) (p >>> k)

/-- Embeds `Split::lo_hi` (src/split.rs): `(self.lo(), self.hi())`. -/
def lo_hi (k p : Nat) : Nat × Nat := (lo k p, hi k p)

/-- Embeds `Join::join` (src/split.rs):
`<$Hi as ZeroExtend<$T>>::zero_extend(hi).shl(8 * size_of::<Self::Lo>())
 | <$Lo as ZeroExtend<$T>>::zero_extend(lo)`; the shift is the `2k`-bit
machine shift, which discards bits shifted past the width. -/
def join (k l h : Nat) : Nat :=
  ((zero_extend (halfTy k) (splitTy k) h <<< k) % 2 ^ (2 * k)) ||| zero_extend (halfTy k) (splitTy k) l

/-- Embeds the `Truncate<U> for &T` reference impl (src/trunc.rs): it dereferences and calls the value impl, `<T as Truncate<U>>::truncate(*self)`. -/
def truncate_ref (T U : Ty) (p : Nat) : Nat := truncate T U p

/-- Embeds the `ZeroExtend<U> for &T` reference impl (src/extend/zero.rs):
it dereferences and calls the value impl. -/
def zero_extend_ref (T U : Ty) (p : Nat) : Nat := zero_extend T U p

/-- Embeds the `SignExtend<U> for &T` reference impl (src/extend/sign.rs):
it dereferences and calls the value impl. -/
def sign_extend_ref (T U : Ty) (p : Nat) : Nat := sign_extend T U p

/-- Embeds the `Extend<U> for &T` reference impl (src/extend/default.rs):
it dereferences and calls the value impl. -/
def extend_ref (T U : Ty) (p : Nat) : Nat := extend T U p

/-! ### Arithmetic helper lemmas about `toInt` / `ofInt` / `rustCast` -/

theorem ofInt_lt (w : Nat) (x : Int) : ofInt w x < 2 ^ w := by
  unfold ofInt
  have h2 : (0 : Int) < (2 : Int) ^ w := by positivity
  have hlt := Int.emod_lt_of_pos x h2
  have hge := Int.emod_nonneg x (by positivity : ((2 : Int) ^ w) ≠ 0)
  have hcast : ((2 : Int)) ^ w = ((2 ^ w : Nat) : Int) := by push_cast; ring
  rw [hcast] at hlt hge
  omega

theorem ofInt_toInt (w p : Nat) (hp : p < 2 ^ w) : ofInt w (toInt w p) = p := by
  unfold ofInt toInt
  have hcast : ((2 : Int)) ^ w = ((2 ^ w : Nat) : Int) := by push_cast; ring
  split
  · rw [Int.emod_eq_of_lt (by positivity) (by rw [hcast]; exact_mod_cast hp)]
    omega
  · rw [Int.emod_sub_cancel, Int.emod_eq_of_lt (by positivity) (by rw [hcast]; exact_mod_cast hp)]
    omega

theorem toInt_ofInt (w : Nat) (x : Int) (hw : 0 < w)
    (h1 : -((2 : Int) ^ (w - 1)) ≤ x) (h2 : x < (2 : Int) ^ (w - 1)) :
    toInt w (ofInt w x) = x := by
  have hsplit : (2 : Int) ^ w = 2 ^ (w - 1) * 2 := by
    rw [← pow_succ]
    congr 1
    omega
  have hsplitN : (2 : Nat) ^ w = 2 ^ (w - 1) * 2 := by
    rw [← pow_succ]
    congr 1
    omega
  have hApos : (0 : Int) < 2 ^ (w - 1) := by positivity
  have hcastA : ((2 : Int)) ^ (w - 1) = ((2 ^ (w - 1) : Nat) : Int) := by push_cast; ring
  have hcastM : ((2 : Int)) ^ w = ((2 ^ w : Nat) : Int) := by push_cast; ring
  by_cases hx : 0 ≤ x
  · have hxlt : x < (2 : Int) ^ w := by omega
    have hmod : x % (2 : Int) ^ w = x := Int.emod_eq_of_lt hx hxlt
    unfold ofInt toInt
    rw [hmod]
    have hcond : x.toNat < 2 ^ (w - 1) := by omega
    rw [if_pos hcond]
    omega
  · have hx0 : x < 0 := by omega
    have hmod : x % (2 : Int) ^ w = x + 2 ^ w := by
      rw [← Int.add_emod_self]
      exact Int.emod_eq_of_lt (by omega) (by omega)
    unfold ofInt toInt
    rw [hmod]
    have hcond : ¬ (x + 2 ^ w).toNat < 2 ^ (w - 1) := by omega
    rw [if_neg hcond]
    omega

theorem rustCast_self_width (T D : Ty) (p : Nat) (hw : D.width = T.width)
    (hp : p < 2 ^ T.width) : rustCast T D p = p := by
  unfold rustCast
  split
  · rw [hw]
    exact ofInt_toInt T.width p hp
  · rw [hw]
    exact Nat.mod_eq_of_lt hp

theorem toNat_emod_cast (p M : Nat) : (((p : Int)) % ((M : Nat) : Int)).toNat = p % M := by
  rw [← Int.natCast_mod]
  exact Int.toNat_natCast _

theorem rustCast_narrow (S D : Ty) (p : Nat) (hw : D.width ≤ S.width) (hp : p < 2 ^ S.width) :
    rustCast S D p = p % 2 ^ D.width := by
  unfold rustCast
  split
  · unfold ofInt toInt
    have hdvd : ((2 : Int) ^ D.width) ∣ ((2 : Int) ^ S.width) := pow_dvd_pow 2 hw
    have hcast : ((2 : Int)) ^ D.width = ((2 ^ D.width : Nat) : Int) := by push_cast; ring
    split
    · rw [hcast]
      exact toNat_emod_cast p (2 ^ D.width)
    · rw [Int.sub_emod, Int.emod_eq_zero_of_dvd hdvd, sub_zero,
        Int.emod_emod_of_dvd _ dvd_rfl, hcast]
      exact toNat_emod_cast p (2 ^ D.width)
  · rfl

theorem rustCast_unsigned_widen (S D : Ty) (p : Nat) (hs : S.signed = false)
    (hw : S.width ≤ D.width) (hp : p < 2 ^ S.width) : rustCast S D p = p := by
  unfold rustCast
  rw [hs]
  simp only [Bool.false_eq_true, if_false]
  exact Nat.mod_eq_of_lt (lt_of_lt_of_le hp (Nat.pow_le_pow_right (by norm_num) hw))

theorem zero_extend_eq (T U : Ty) (p : Nat) (hw : T.width ≤ U.width)
    (hp : p < 2 ^ T.width) : zero_extend T U p = p := by
  unfold zero_extend
  split
  · rfl
  · rw [rustCast_self_width T (unsignedOf T) p rfl hp,
      rustCast_unsigned_widen (unsignedOf T) (unsignedOf U) p rfl hw hp,
      rustCast_unsigned_widen (unsignedOf U) U p rfl (le_refl _)
        (lt_of_lt_of_le hp (Nat.pow_le_pow_right (by norm_num) hw))]

theorem signedOf_eq_self (U : Ty) (hs : U.signed = true) : signedOf U = U := by
  cases U
  simp only [signedOf] at *
  rw [hs]

theorem sign_extend_eq (T U : Ty) (p : Nat) (ht : T.signed = true) (hu : U.signed = true)
    (hw : T.width ≤ U.width) (hp : p < 2 ^ T.width) :
    sign_extend T U p = ofInt U.width (toInt T.width p) := by
  unfold sign_extend
  split
  · next heq =>
    subst heq
    exact (ofInt_toInt T.width p hp).symm
  · have h1 : rustCast T (signedOf T) p = p := rustCast_self_width T (signedOf T) p rfl hp
    rw [h1]
    have h2 : rustCast (signedOf T) (signedOf U) p = ofInt U.width (toInt T.width p) := by
      unfold rustCast
      simp only [signedOf, if_pos]
    rw [h2]
    have h3 := ofInt_lt U.width (toInt T.width p)
    rw [signedOf_eq_self U hu]
    exact rustCast_self_width U U _ rfl h3

theorem ofInt_natCast (w n : Nat) : ofInt w ((n : Nat) : Int) = n % 2 ^ w := by
  unfold ofInt
  have hcast : ((2 : Int)) ^ w = ((2 ^ w : Nat) : Int) := by push_cast; ring
  rw [hcast]
  exact toNat_emod_cast n (2 ^ w)

theorem ofInt_neg_case (w : Nat) (x : Int) (h0 : -((2 : Int) ^ w) ≤ x) (h1 : x < 0) :
    ofInt w x = (x + (2 : Int) ^ w).toNat := by
  unfold ofInt
  rw [← Int.add_emod_self, Int.emod_eq_of_lt (by omega) (by omega)]

theorem toInt_bounds (w p : Nat) (hw : 0 < w) (hp : p < 2 ^ w) :
    -((2 : Int) ^ (w - 1)) ≤ toInt w p ∧ toInt w p < (2 : Int) ^ (w - 1) := by
  unfold toInt
  have hsplit : (2 : Int) ^ w = 2 ^ (w - 1) * 2 := by
    rw [← pow_succ]
    congr 1
    omega
  have hcastA : ((2 : Int)) ^ (w - 1) = ((2 ^ (w - 1) : Nat) : Int) := by push_cast; ring
  have hcastM : ((2 : Int)) ^ w = ((2 ^ w : Nat) : Int) := by push_cast; ring
  have hA : (0 : Nat) < 2 ^ (w - 1) := Nat.pos_pow_of_pos _ (by norm_num)
  split <;> omega

theorem truncate_eq (T U : Ty) (p : Nat) (hw : U.width ≤ T.width) (hp : p < 2 ^ T.width) :
    truncate T U p = p % 2 ^ U.width := by
  unfold truncate
  split
  · next h =>
    subst h
    exact (Nat.mod_eq_of_lt hp).symm
  · exact rustCast_narrow T U p hw hp

/-! ### Claim theorems -/

/-- Claim C9: every self-conversion is the identity: `zero_extend::<T,T>`,
`sign_extend::<T,T>`, `extend::<T,T>` and `truncate::<T,T>` all return the
input unchanged, via the blanket identity impls. -/
theorem C9_self_conversion_identity (T : Ty) (p : Nat) :
    zero_extend T T p = p ∧ sign_extend T T p = p ∧ extend T T p = p ∧ truncate T T p = p := by
  refine ⟨?_, ?_, ?_, ?_⟩ <;> simp [zero_extend, sign_extend, extend, truncate]

/-- Claim C6: the generic `extend` agrees with `zero_extend` for unsigned
source types and with `sign_extend` for signed source types, on every pair
and every value. -/
theorem C6_extend_dispatch (T U : Ty) (p : Nat) :
    extend T U p = if T.signed = true then sign_extend T U p else zero_extend T U p := by
  unfold extend
  by_cases h : T = U
  · subst h
    simp [sign_extend, zero_extend]
  · rw [if_neg h]

/-- Claim C10: every reference overload of a conversion capability returns
exactly the same result as the corresponding by-value operation. -/
theorem C10_ref_overloads_agree (T U : Ty) (p : Nat) :
    truncate_ref T U p = truncate T U p ∧ zero_extend_ref T U p = zero_extend T U p ∧
    sign_extend_ref T U p = sign_extend T U p ∧ extend_ref T U p = extend T U p :=
  ⟨rfl, rfl, rfl, rfl⟩

/-- Claim C1: for every implemented zero-extension pair and every value, the
result has the low-order `width T` bits equal to the source bit pattern and
all high-order bits zero, regardless of signedness; in particular
`zero_extend::<i8,i16>(-1) == 255`. -/
theorem C1_zero_extend_bits (T U : Ty) (p : Nat)
    (himpl : ZeroExtendImplemented T U) (hp : p < 2 ^ T.width) :
    zero_extend T U p % 2 ^ T.width = p ∧
    zero_extend T U p / 2 ^ T.width = 0 ∧
    toInt i16.width (zero_extend i8 i16 (ofInt i8.width (-1))) = 255 := by
  have hw : T.width ≤ U.width := by
    rcases himpl with h | h
    · subst h
      exact le_refl _
    · exact le_of_lt h.2.1
  rw [zero_extend_eq T U p hw hp]
  exact ⟨Nat.mod_eq_of_lt hp, Nat.div_eq_of_lt hp, by decide⟩

theorem C1_zero_extend_bits_witness :
    zero_extend u8 u16 255 % 2 ^ u8.width = 255 ∧
    zero_extend u8 u16 255 / 2 ^ u8.width = 0 ∧
    toInt i16.width (zero_extend i8 i16 (ofInt i8.width (-1))) = 255 :=
  C1_zero_extend_bits u8 u16 255
    (Or.inr ⟨rfl, by decide, Or.inl rfl, Or.inr (Or.inl rfl)⟩) (by decide)

/-- Claim C4: for every implemented truncation pair and every value, the
result holds exactly the low-order `width U` bits of the source bit pattern;
in particular `truncate::<i128,i8>(-1) == -1` and
`truncate::<u16,u8>(0x1234) == 0x34`. -/
theorem C4_truncate_low_bits (T U : Ty) (p : Nat)
    (himpl : TruncateImplemented T U) (hp : p < 2 ^ T.width) :
    truncate T U p = p % 2 ^ U.width ∧
    toInt i8.width (truncate i128 i8 (ofInt i128.width (-1))) = -1 ∧
    truncate u16 u8 0x1234 = 0x34 := by
  have hw : U.width ≤ T.width := by
    rcases himpl with h | h
    · subst h
      exact le_refl _
    · exact le_of_lt h.2.1
  exact ⟨truncate_eq T U p hw hp, by decide, by decide⟩

theorem C4_truncate_low_bits_witness :
    truncate u16 u8 4660 = 4660 % 2 ^ u8.width ∧
    toInt i8.width (truncate i128 i8 (ofInt i128.width (-1))) = -1 ∧
    truncate u16 u8 0x1234 = 0x34 :=
  C4_truncate_low_bits u16 u8 4660
    (Or.inr ⟨rfl, by decide, Or.inr (Or.inl rfl), Or.inl rfl⟩) (by decide)

/-- Claim C7: signedness reinterpretation is a bit-pattern-preserving
involution: `as_signed(as_unsigned(v)) == v` for signed `v` and
`as_unsigned(as_signed(v)) == v` for unsigned `v`. -/
theorem C7_reinterpret_round_trip (T : Ty) (p : Nat) (hp : p < 2 ^ T.width) :
    (T.signed = true → as_signed (unsignedOf T) (as_unsigned T p) = p) ∧
    (T.signed = false → as_unsigned (signedOf T) (as_signed T p) = p) := by
  constructor
  · intro hs
    have h1 : as_unsigned T p = p := by
      unfold as_unsigned
      rw [hs, if_pos rfl]
      exact rustCast_self_width T (unsignedOf T) p rfl hp
    rw [h1]
    unfold as_signed
    simp only [unsignedOf, Bool.false_eq_true, if_false]
    exact rustCast_self_width _ _ p rfl hp
  · intro hs
    have h1 : as_signed T p = p := by
      unfold as_signed
      rw [hs]
      simp only [Bool.false_eq_true, if_false]
      exact rustCast_self_width T (signedOf T) p rfl hp
    rw [h1]
    unfold as_unsigned
    simp only [signedOf, if_pos]
    exact rustCast_self_width _ _ p rfl hp

theorem C7_reinterpret_round_trip_witness :
    (i8.signed = true → as_signed (unsignedOf i8) (as_unsigned i8 200) = 200) ∧
    (i8.signed = false → as_unsigned (signedOf i8) (as_signed i8 200) = 200) :=
  C7_reinterpret_round_trip i8 200 (by decide)

/-- Claim C5: for every signed type, `abs_unsigned` returns the unsigned
reinterpretation for non-negative inputs and the twos-complement magnitude
`(NOT(as_unsigned(v)) + 1) mod 2 ^ w` for negative inputs; the result is
always the exact magnitude `natAbs`, so no input (including the most
negative value) overflows; in particular `abs_unsigned(i8::MIN) == 128`
and `abs_unsigned(-1i32) == 1`. -/
theorem C5_abs_unsigned_correct (T : Ty) (p : Nat) (hs : T.signed = true)
    (hw : 0 < T.width) (hp : p < 2 ^ T.width) :
    (0 ≤ toInt T.width p → abs_unsigned T p = as_unsigned T p) ∧
    (toInt T.width p < 0 →
      abs_unsigned T p = (bitNot T.width (as_unsigned T p) + 1) % 2 ^ T.width) ∧
    abs_unsigned T p = (toInt T.width p).natAbs ∧
    abs_unsigned i8 (ofInt i8.width (-128)) = 128 ∧
    abs_unsigned i32 (ofInt i32.width (-1)) = 1 := by
  have hau : as_unsigned T p = p := by
    unfold as_unsigned
    rw [hs, if_pos rfl]
    exact rustCast_self_width T (unsignedOf T) p rfl hp
  have habs : abs_unsigned T p =
      if toInt T.width p < 0 then wrapping_add T.width (bitNot T.width p) 1 else p := by
    unfold abs_unsigned
    rw [hs, if_pos rfl, hau]
  have hsplitN : (2 : Nat) ^ T.width = 2 ^ (T.width - 1) * 2 := by
    rw [← pow_succ]
    congr 1
    omega
  have hA : (0 : Nat) < 2 ^ (T.width - 1) := Nat.pos_pow_of_pos _ (by norm_num)
  have hcastA : ((2 : Int)) ^ (T.width - 1) = ((2 ^ (T.width - 1) : Nat) : Int) := by
    push_cast; ring
  have hcastM : ((2 : Int)) ^ T.width = ((2 ^ T.width : Nat) : Int) := by push_cast; ring
  refine ⟨?_, ?_, ?_, by decide, by decide⟩
  · intro h
    rw [habs, if_neg (by omega), hau]
  · intro h
    rw [habs, if_pos h, hau]
    rfl
  · by_cases hc : p < 2 ^ (T.width - 1)
    · have hx : toInt T.width p = (p : Int) := by
        unfold toInt
        rw [if_pos hc]
      rw [habs, hx, if_neg (by omega)]
      simp
    · have hx : toInt T.width p = (p : Int) - ((2 ^ T.width : Nat) : Int) := by
        unfold toInt
        rw [if_neg hc, hcastM]
      rw [habs, hx, if_pos (by omega)]
      unfold wrapping_add bitNot
      have h1 : 2 ^ T.width - 1 - p + 1 = 2 ^ T.width - p := by omega
      rw [h1, Nat.mod_eq_of_lt (by omega)]
      omega

theorem C5_abs_unsigned_correct_witness :
    (0 ≤ toInt i8.width 128 → abs_unsigned i8 128 = as_unsigned i8 128) ∧
    (toInt i8.width 128 < 0 →
      abs_unsigned i8 128 = (bitNot i8.width (as_unsigned i8 128) + 1) % 2 ^ i8.width) ∧
    abs_unsigned i8 128 = (toInt i8.width 128).natAbs ∧
    abs_unsigned i8 (ofInt i8.width (-128)) = 128 ∧
    abs_unsigned i32 (ofInt i32.width (-1)) = 1 :=
  C5_abs_unsigned_correct i8 128 rfl (by decide) (by decide)

/-- Claim C2: for every implemented sign-extension pair of signed types and
every value, the result has the low-order `width T` bits equal to the source
bit pattern and all high-order bits equal to the sign bit (all zero for a
non-negative source, all one for a negative source), and the numeric value
is preserved; in particular `sign_extend::<i8,i32>(-1) == -1` and
`sign_extend::<i16,i64>(-1) == -1`. -/
theorem C2_sign_extend_bits (T U : Ty) (p : Nat)
    (himpl : SignExtendImplemented T U) (hts : T.signed = true)
    (hp : p < 2 ^ T.width) (hw0 : 0 < T.width) :
    sign_extend T U p % 2 ^ T.width = p ∧
    sign_extend T U p / 2 ^ T.width =
      (if p < 2 ^ (T.width - 1) then 0 else 2 ^ (U.width - T.width) - 1) ∧
    toInt U.width (sign_extend T U p) = toInt T.width p ∧
    toInt i32.width (sign_extend i8 i32 (ofInt i8.width (-1))) = -1 ∧
    toInt i64.width (sign_extend i16 i64 (ofInt i16.width (-1))) = -1 := by
  obtain ⟨hu, hw⟩ : U.signed = true ∧ T.width ≤ U.width := by
    rcases himpl with h | h
    · subst h
      exact ⟨hts, le_refl _⟩
    · exact ⟨h.2.1, le_of_lt h.2.2.1⟩
  have hse := sign_extend_eq T U p hts hu hw hp
  have huw0 : 0 < U.width := lt_of_lt_of_le hw0 hw
  have hbounds := toInt_bounds T.width p hw0 hp
  have hmono : ((2 : Int) ^ (T.width - 1)) ≤ 2 ^ (U.width - 1) :=
    pow_le_pow_right₀ (by norm_num) (by omega)
  have hval : toInt U.width (sign_extend T U p) = toInt T.width p := by
    rw [hse]
    exact toInt_ofInt U.width (toInt T.width p) huw0 (by omega) (by omega)
  have hpowmono : (2 : Nat) ^ T.width ≤ 2 ^ U.width := Nat.pow_le_pow_right (by norm_num) hw
  have hcastT : ((2 : Int)) ^ T.width = ((2 ^ T.width : Nat) : Int) := by push_cast; ring
  have hcastU : ((2 : Int)) ^ U.width = ((2 ^ U.width : Nat) : Int) := by push_cast; ring
  by_cases hc : p < 2 ^ (T.width - 1)
  · have hx : toInt T.width p = (p : Int) := by
      unfold toInt
      rw [if_pos hc]
    have hpat : sign_extend T U p = p := by
      rw [hse, hx, ofInt_natCast]
      exact Nat.mod_eq_of_lt (lt_of_lt_of_le hp hpowmono)
    refine ⟨?_, ?_, hval, by decide, by decide⟩
    · rw [hpat]
      exact Nat.mod_eq_of_lt hp
    · rw [hpat, if_pos hc]
      exact Nat.div_eq_of_lt hp
  · have hx : toInt T.width p = (p : Int) - ((2 ^ T.width : Nat) : Int) := by
      unfold toInt
      rw [if_neg hc, hcastT]
    have hneg : toInt T.width p < 0 := by omega
    have hpat : sign_extend T U p = p + (2 ^ U.width - 2 ^ T.width) := by
      rw [hse, ofInt_neg_case U.width (toInt T.width p) (by omega) hneg, hx, hcastU]
      omega
    set c : Nat := 2 ^ (U.width - T.width) - 1 with hc_def
    have hBpos : (0 : Nat) < 2 ^ (U.width - T.width) := Nat.pos_pow_of_pos _ (by norm_num)
    have hc2 : 2 ^ T.width * c + 2 ^ T.width = 2 ^ U.width := by
      have e1 : 2 ^ T.width * c + 2 ^ T.width = 2 ^ T.width * (c + 1) := by ring
      have e2 : c + 1 = 2 ^ (U.width - T.width) := by omega
      rw [e1, e2, ← pow_add]
      congr 1
      omega
    have hrw : p + (2 ^ U.width - 2 ^ T.width) = p + 2 ^ T.width * c := by omega
    rw [hpat, hrw, if_neg hc]
    have hTpos : (0 : Nat) < 2 ^ T.width := Nat.pos_pow_of_pos _ (by norm_num)
    refine ⟨?_, ?_, ?_, by decide, by decide⟩
    · rw [Nat.add_mul_mod_self_left]
      exact Nat.mod_eq_of_lt hp
    · rw [Nat.add_mul_div_left _ _ hTpos, Nat.div_eq_of_lt hp]
      omega
    · rw [← hrw, ← hpat]
      exact hval

theorem C2_sign_extend_bits_witness :
    sign_extend i8 i16 255 % 2 ^ i8.width = 255 ∧
    sign_extend i8 i16 255 / 2 ^ i8.width =
      (if 255 < 2 ^ (i8.width - 1) then 0 else 2 ^ (i16.width - i8.width) - 1) ∧
    toInt i16.width (sign_extend i8 i16 255) = toInt i8.width 255 ∧
    toInt i32.width (sign_extend i8 i32 (ofInt i8.width (-1))) = -1 ∧
    toInt i64.width (sign_extend i16 i64 (ofInt i16.width (-1))) = -1 :=
  C2_sign_extend_bits i8 i16 255
    (Or.inr ⟨rfl, rfl, by decide, Or.inl rfl, Or.inr (Or.inl rfl)⟩)
    rfl (by decide) (by decide)

theorem mul_pow_lor_eq_add (k : Nat) :
    ∀ h l : Nat, l < 2 ^ k → (h * 2 ^ k) ||| l = h * 2 ^ k + l := by
  induction k with
  | zero =>
    intro h l hl
    interval_cases l
    simp
  | succ k ih =>
    intro h l hl
    have hboddle : l.bodd.toNat ≤ 1 := Bool.toNat_le l.bodd
    have hb := Nat.bodd_add_div2 l
    have hpow : (2 : Nat) ^ (k + 1) = 2 * 2 ^ k := by ring
    have hdiv : l.div2 < 2 ^ k := by omega
    have hbit : Nat.bit false (h * 2 ^ k) = h * 2 ^ (k + 1) := by
      rw [Nat.bit_val, hpow]
      simp [Bool.toNat]
      ring
    calc h * 2 ^ (k + 1) ||| l
        = Nat.bit false (h * 2 ^ k) ||| Nat.bit l.bodd l.div2 := by
          rw [hbit, Nat.bit_decomp]
      _ = Nat.bit (false || l.bodd) ((h * 2 ^ k) ||| l.div2) := Nat.lor_bit _ _ _ _
      _ = Nat.bit l.bodd (h * 2 ^ k + l.div2) := by rw [Bool.false_or, ih _ _ hdiv]
      _ = h * 2 ^ (k + 1) + l := by
          rw [Nat.bit_val, hpow, Nat.mul_left_comm]
          omega

theorem splitTy_ne_halfTy (k : Nat) (hk : 0 < k) : splitTy k ≠ halfTy k := by
  intro h
  have hwid := congrArg Ty.width h
  simp only [splitTy, halfTy] at hwid
  omega

theorem lo_eq (k p : Nat) (hk : 0 < k) : lo k p = p % 2 ^ k := by
  unfold lo truncate
  rw [if_neg (splitTy_ne_halfTy k hk)]
  unfold rustCast
  simp [splitTy, halfTy]

theorem hi_eq (k p : Nat) (hk : 0 < k) : hi k p = (p / 2 ^ k) % 2 ^ k := by
  unfold hi truncate
  rw [if_neg (splitTy_ne_halfTy k hk)]
  unfold rustCast
  simp [splitTy, halfTy, Nat.shiftRight_eq_div_pow]

theorem join_eq (k l h : Nat) (hl : l < 2 ^ k) (hh : h < 2 ^ k) :
    join k l h = h * 2 ^ k + l := by
  unfold join
  have hwid : (halfTy k).width ≤ (splitTy k).width := by
    simp only [halfTy, splitTy]
    omega
  rw [zero_extend_eq _ _ h hwid hh, zero_extend_eq _ _ l hwid hl, Nat.shiftLeft_eq]
  have hpow : (2 : Nat) ^ (2 * k) = 2 ^ k * 2 ^ k := by
    rw [← pow_add]
    congr 1
    omega
  have hkpos : (0 : Nat) < 2 ^ k := Nat.pos_pow_of_pos _ (by norm_num)
  have hlt : h * 2 ^ k < 2 ^ (2 * k) := by
    rw [hpow]
    exact Nat.mul_lt_mul_of_lt_of_le hh (le_refl _) hkpos
  rw [Nat.mod_eq_of_lt hlt]
  exact mul_pow_lor_eq_add k h l hl

theorem splitJoinImplemented_pos (k : Nat) (hk : SplitJoinImplemented k) : 0 < k := by
  rcases hk with h | h | h | h <;> omega

/-- Claim C3: for every implemented split/join half width, `join` undoes
`lo_hi` and `lo_hi` undoes `join`: `join(lo_hi(v)) == v` for every value of
the double-width type, and `lo_hi(join(l, h)) == (l, h)` for every pair of
half-width values. -/
theorem C3_split_join_round_trip (k v l h : Nat) (himpl : SplitJoinImplemented k)
    (hv : v < 2 ^ (2 * k)) (hl : l < 2 ^ k) (hh : h < 2 ^ k) :
    join k (lo_hi k v).1 (lo_hi k v).2 = v ∧ lo_hi k (join k l h) = (l, h) := by
  have hk := splitJoinImplemented_pos k himpl
  have hpow : (2 : Nat) ^ (2 * k) = 2 ^ k * 2 ^ k := by
    rw [← pow_add]
    congr 1
    omega
  have hkpos : (0 : Nat) < 2 ^ k := Nat.pos_pow_of_pos _ (by norm_num)
  have hdivlt : v / 2 ^ k < 2 ^ k := Nat.div_lt_of_lt_mul (by rw [← hpow]; exact hv)
  constructor
  · unfold lo_hi
    simp only
    rw [lo_eq k v hk, hi_eq k v hk, Nat.mod_eq_of_lt hdivlt,
      join_eq k _ _ (Nat.mod_lt _ hkpos) hdivlt, Nat.mul_comm]
    exact Nat.div_add_mod v (2 ^ k)
  · have hj := join_eq k l h hl hh
    unfold lo_hi
    rw [hj, lo_eq k _ hk, hi_eq k _ hk, Nat.mul_comm h (2 ^ k), Nat.mul_add_mod,
      Nat.mod_eq_of_lt hl, Nat.mul_add_div hkpos, Nat.div_eq_of_lt hl,
      Nat.add_zero, Nat.mod_eq_of_lt hh]

theorem C3_split_join_round_trip_witness :
    join 8 (lo_hi 8 43981).1 (lo_hi 8 43981).2 = 43981 ∧
    lo_hi 8 (join 8 3 7) = (3, 7) :=
  C3_split_join_round_trip 8 43981 3 7 (Or.inl rfl) (by decide) (by decide) (by decide)

/-- Claim C8: for every implemented split half width `k`, `lo` returns the
low-order `k` bits, `hi` returns the value logically shifted right by `k`
bits (the high-order `k` bits right-aligned), `lo_hi` returns the pair
`(lo, hi)`; in particular `hi(u16::from(u8::MAX)) == 0`. -/
theorem C8_split_components (k v : Nat) (himpl : SplitJoinImplemented k)
    (hv : v < 2 ^ (2 * k)) :
    lo k v = v % 2 ^ k ∧ hi k v = v / 2 ^ k ∧ lo_hi k v = (lo k v, hi k v) ∧
    hi 8 255 = 0 := by
  have hk := splitJoinImplemented_pos k himpl
  have hpow : (2 : Nat) ^ (2 * k) = 2 ^ k * 2 ^ k := by
    rw [← pow_add]
    congr 1
    omega
  have hdivlt : v / 2 ^ k < 2 ^ k := Nat.div_lt_of_lt_mul (by rw [← hpow]; exact hv)
  refine ⟨lo_eq k v hk, ?_, rfl, by decide⟩
  rw [hi_eq k v hk]
  exact Nat.mod_eq_of_lt hdivlt

theorem C8_split_components_witness :
    lo 8 43981 = 43981 % 2 ^ 8 ∧ hi 8 43981 = 43981 / 2 ^ 8 ∧
    lo_hi 8 43981 = (lo 8 43981, hi 8 43981) ∧ hi 8 255 = 0 :=
  C8_split_components 8 43981 (Or.inl rfl) (by decide)

end IntConv
